import Mathlib

/-
Verification of the Brick Pop solver (`src/solve.py`).

The repository's search engine lives in `src/solve.py`:
  * `solve_board_dfs`   - single-threaded depth-first search,
  * `solution_search`   - the per-worker search used by the parallel solver
                          (reports solutions through a multiprocessing queue),
  * `chunk`             - splits the root-level move list into worker partitions,
  * `parallel_solve`    - dispatches one process per chunk and blocks on
                          `queue.get()` for the first reported solution.

The board model (`board.py`, `coordinate.py`, `color.py`) is imported by
`solve.py` but is not part of the sources present here, so it is modelled
from the specification (spec.md sections 3 and 4.1): an N by N grid of
cells, flood-fill connected components over 4-adjacency, component removal,
per-column gravity, and closure of fully-empty columns.

Recursion that the Python source expresses as unbounded recursion is
embedded with an explicit fuel argument (structural recursion) together
with fuel-sufficiency lemmas; every definition is executable so concrete
boards can be evaluated by `decide`.
-/

namespace BrickPop

/-- Modelled from the spec: a cell state is `Empty` or `Colored(code)` with an
opaque color identifier (spec section 3, "Cell state"); the identifier is any
value type with equality, embedded here as `Nat`.  This models `color.py`,
which is not among the sources. -/
inductive Cell : Type where
  | empty : Cell
  | colored (code : Nat) : Cell
deriving DecidableEq

/-- True exactly on `Cell.colored` values; `Empty` never matches a flood fill. -/
def Cell.isColored : Cell → Bool
  | .empty => false
  | .colored _ => true

/-- Modelled from the spec: a Coordinate is a pair of integers `(row, col)`
(spec section 3, "Coordinate"); row index `i`, column index `j`.  This models
`coordinate.py`, which is not among the sources. -/
structure Coordinate : Type where
  i : Nat
  j : Nat
deriving DecidableEq

/-- Modelled from the spec: a Board is a total mapping from every coordinate of
an `N x N` grid to a cell state plus the fixed `N` (spec section 3, "Board").
It is represented as the list of columns (indexed by `j`), each column the list
of its cells from top (row `0`) to bottom (row `N-1`).  This models `board.py`,
which is not among the sources. -/
structure Board : Type where
  n : Nat
  cols : List (List Cell)
deriving DecidableEq

/-- Cell of board `b` at row `i`, column `j`; out-of-range positions read as
`Cell.empty` (they can never be part of a component, since flood fill only
accepts colored cells). -/
def cellAt (b : Board) (i j : Nat) : Cell :=
  (b.cols.getD j []).getD i Cell.empty

/-- Modelled from the spec: the 4-directional neighbours (up/down/left/right,
not diagonal) of a coordinate (spec section 3, "Move"); on the `Nat` grid the
up/left neighbours exist only when the index is positive. -/
def neighbors (c : Coordinate) : List Coordinate :=
  [⟨c.i + 1, c.j⟩, ⟨c.i, c.j + 1⟩]
    ++ (if 0 < c.i then [⟨c.i - 1, c.j⟩] else [])
    ++ (if 0 < c.j then [⟨c.i, c.j - 1⟩] else [])

/-- Modelled from the spec: flood fill over 4-adjacent same-color cells with a
visited set (spec section 4.1, "Algorithm for connected-component discovery").
`fuel` bounds the number of frontier elements processed; each step pops one
frontier coordinate, accepts it into `vis` when it is an unvisited cell of
color `k`, and pushes its neighbours. -/
def flood (b : Board) (k : Nat) : Nat → List Coordinate → List Coordinate → List Coordinate
  | 0, _, vis => vis
  | _ + 1, [], vis => vis
  | fuel + 1, c :: rest, vis =>
    if c ∈ vis then flood b k fuel rest vis
    else if cellAt b c.i c.j = Cell.colored k then
      flood b k fuel (neighbors c ++ rest) (c :: vis)
    else flood b k fuel rest vis

/-- Modelled from the spec: the connected component of identically-colored
cells reachable from seed `c` (color `k`).  The fuel `4*n*n + 5` suffices:
at most `n*n` cells are ever accepted and each accepted cell pushes four
neighbours onto the frontier. -/
def component (b : Board) (c : Coordinate) (k : Nat) : List Coordinate :=
  flood b k (4 * b.n * b.n + 5) [c] []

/-- Whether every cell of a column is `Empty`. -/
def colIsEmpty (col : List Cell) : Bool :=
  col.all (fun c => !c.isColored)

/-- Modelled from the spec: a board is solved iff every cell is `Empty`
(spec section 3, "Board" invariants; section 4.1, `is_solved`).  Named after
the `Board.is_solved` method that `solve.py` calls. -/
def Board.is_solved (b : Board) : Bool :=
  b.cols.all colIsEmpty

/-- Number of colored cells in one column. -/
def colCount (col : List Cell) : Nat :=
  (col.filter Cell.isColored).length

/-- Total number of colored (non-empty) cells of a board; the measure that
every legal move strictly decreases. -/
def coloredCount (b : Board) : Nat :=
  (b.cols.map colCount).sum

/-- Modelled from the spec: set every cell of column `j` whose coordinate
(row index counted from `i` upward) lies in `comp` to `Empty` (spec section 3,
"Move", step 1). -/
def removeColCells (comp : List Coordinate) (j : Nat) : Nat → List Cell → List Cell
  | _, [] => []
  | i, cell :: rest =>
    (if (⟨i, j⟩ : Coordinate) ∈ comp then Cell.empty else cell)
      :: removeColCells comp j (i + 1) rest

/-- Remove the component's cells from every column, columns indexed from `j`. -/
def removeCols (comp : List Coordinate) : Nat → List (List Cell) → List (List Cell)
  | _, [] => []
  | j, col :: rest => removeColCells comp j 0 col :: removeCols comp (j + 1) rest

/-- Modelled from the spec: the board with every cell of `comp` set to `Empty`
(spec section 3, "Move", step 1). -/
def removeComp (b : Board) (comp : List Coordinate) : Board :=
  ⟨b.n, removeCols comp 0 b.cols⟩

/-- Modelled from the spec: gravity within one column - remaining colored
cells fall to the lowest rows preserving their relative vertical order,
leaving `Empty` at the top (spec section 3, "Move", step 2). -/
def gravityCol (col : List Cell) : List Cell :=
  List.replicate (col.length - (col.filter Cell.isColored).length) Cell.empty
    ++ col.filter Cell.isColored

/-- Gravity applied to every column independently. -/
def gravityBoard (b : Board) : Board :=
  ⟨b.n, b.cols.map gravityCol⟩

/-- Modelled from the spec: horizontal collapse - every fully-`Empty` column
is closed, shifting the columns right of it one position left, and fresh
empty columns fill the right edge so the grid keeps its width (spec section 3,
"Move", step 3). -/
def collapseBoard (b : Board) : Board :=
  ⟨b.n,
    b.cols.filter (fun col => !colIsEmpty col)
      ++ List.replicate
          (b.cols.length - (b.cols.filter (fun col => !colIsEmpty col)).length)
          (List.replicate b.n Cell.empty)⟩

/-- Modelled from the spec: `apply(board, coordinate)` fails (returns `none`,
the `IllegalMove` condition) if the coordinate does not address a `Colored`
cell or its connected component has size `< 2`; otherwise it removes the
component, applies gravity, then collapse (spec section 4.1, `apply`; spec
section 3, "Move").  Named after the `Board.pop_from` method that `solve.py`
calls. -/
def Board.pop_from (b : Board) (c : Coordinate) : Option Board :=
  match cellAt b c.i c.j with
  | Cell.empty => none
  | Cell.colored k =>
    if 2 ≤ (component b c k).length then
      some (collapseBoard (gravityBoard (removeComp b (component b c k))))
    else none

/-- Modelled from the spec: `legal_moves(board)` - for every coordinate whose
connected component has size at least 2, the coordinate paired with the board
that results from applying that move (spec section 4.1, `legal_moves`).
Coordinates are enumerated row-major over the `N x N` grid; the spec leaves
the enumeration order implementation-defined.  Named after the
`Board.available_moves` method that `solve.py` calls. -/
def Board.available_moves (b : Board) : List (Coordinate × Board) :=
  (List.range b.n).flatMap (fun i =>
    (List.range b.n).filterMap (fun j =>
      (b.pop_from ⟨i, j⟩).map (fun b' => ((⟨i, j⟩ : Coordinate), b'))))

/-- Sequential replay of a list of moves from a board, as `replay_steps` in
`solve.py` does via `board.pop_from(steps[0])`; `none` models an
`IllegalMove` being raised at some step. -/
def replay_steps : Board → List Coordinate → Option Board
  | b, [] => some b
  | b, s :: rest => (b.pop_from s).bind (fun b' => replay_steps b' rest)

/-- Fuel-indexed form of `solve_board_dfs` from `src/solve.py`: if the board
is solved return the accumulated `steps`; otherwise return the first
non-`None` recursive result over `board.available_moves()`, recursing with
`steps + (step,)`.  Fuel `coloredCount b + 1` is always sufficient since
every move strictly decreases `coloredCount`. -/
def solveBoardDfsF : Nat → Board → List Coordinate → Option (List Coordinate)
  | 0, _, _ => none
  | fuel + 1, b, steps =>
    if b.is_solved then some steps
    else b.available_moves.findSome? (fun p => solveBoardDfsF fuel p.2 (steps ++ [p.1]))

/-- The serial solver `solve_board_dfs(board, steps=tuple())` of
`src/solve.py`; `none` models the Python `None` (`NotFound`). -/
def solve_board_dfs (b : Board) (steps : List Coordinate) : Option (List Coordinate) :=
  solveBoardDfsF (coloredCount b + 1) b steps

/-- The depth-first traversal exactly as worded by spec section 4.2: at each
board, if solved, return the empty continuation; otherwise, for each
`(coordinate, next_board)` in `legal_moves(board)`, recursively search
`next_board` and return the first recursive result that is not `NotFound`,
prefixed with `coordinate`; if `legal_moves` is empty and the board is not
solved, report `NotFound`.  This is the spec-side definition used for the
refinement claim about `solve_board_dfs`; the fuel embeds the spec's plain
recursion exactly as for the code-side definition. -/
def solveSerialSpecF : Nat → Board → Option (List Coordinate)
  | 0, _ => none
  | fuel + 1, b =>
    if b.is_solved then some []
    else b.available_moves.findSome? (fun p => (solveSerialSpecF fuel p.2).map (p.1 :: ·))

/-- Top-level spec-side serial solver (spec section 4.2, `solve_serial`). -/
def solve_serial_spec (b : Board) : Option (List Coordinate) :=
  solveSerialSpecF (coloredCount b + 1) b

/-- The largest `coloredCount` among the boards of a move list; drives the
fuel for the worker search. -/
def maxCount (ms : List (Coordinate × Board)) : Nat :=
  ms.foldr (fun p m => max (coloredCount p.2) m) 0

/-- One level of the worker loop of `solution_search` in `src/solve.py`:
for each `(step, board)` pair in order, if `board.is_solved()` the worker
puts `steps + (step,)` on the queue and returns (the whole call stops);
otherwise it recurses into `board.available_moves()` via `next` and then
continues with the remaining pairs.  The returned list collects the values
put on the queue, in order. -/
def searchGo (next : List (Coordinate × Board) → List Coordinate → List (List Coordinate)) :
    List (Coordinate × Board) → List Coordinate → List (List Coordinate)
  | [], _ => []
  | (c, b) :: rest, steps =>
    if b.is_solved then [steps ++ [c]]
    else next b.available_moves (steps ++ [c]) ++ searchGo next rest steps

/-- Fuel-indexed `solution_search`: the fuel bounds the recursion depth
(one unit per level of boards); `maxCount ms + 1` always suffices. -/
def searchB : Nat → List (Coordinate × Board) → List Coordinate → List (List Coordinate)
  | 0 => searchGo (fun _ _ => [])
  | fuel + 1 => searchGo (searchB fuel)

/-- The worker search `solution_search(queue, available_moves, steps)` of
`src/solve.py`, with the queue modelled by the returned list: the values the
worker puts on the shared queue, in the order it puts them.  Note the source
never puts any `NotFound` marker - a worker that exhausts its branches ends
with an empty put list. -/
def solution_search (ms : List (Coordinate × Board)) (steps : List Coordinate) :
    List (List Coordinate) :=
  searchB (maxCount ms + 1) ms steps

/-- The constant `NUM_PARALLEL_PROCESSES` of `src/solve.py`. -/
def NUM_PARALLEL_PROCESSES : Nat := 8

/-- Python 2 `int(round(len / float(n)))` for natural `len` and positive `n`:
rounding half away from zero, i.e. `floor(len / n + 1/2)`.  (For the list
sizes at hand the float division of the source is exact enough that it agrees
with this rational rounding; Python would raise `ZeroDivisionError` at
`n = 0`, a case no claim exercises.) -/
def sliceLength (len n : Nat) : Nat :=
  (2 * len + n) / (2 * n)

/-- The `chunk(arr, n)` helper of `src/solve.py`: with
`slice_length = int(round(len(arr) / float(n)))` it returns the `n` slices
`arr[i * slice_length : (i+1) * slice_length]` for `i in range(n)`. -/
def chunk {α : Type} (arr : List α) (n : Nat) : List (List α) :=
  (List.range n).map (fun i =>
    (arr.drop (i * sliceLength arr.length n)).take (sliceLength arr.length n))

/-- The per-worker queue contents of `parallel_solve(board)` in
`src/solve.py`: one worker process per element of
`chunk(board.available_moves(), k)` (the source always passes
`NUM_PARALLEL_PROCESSES` for `k`), each running `solution_search` on its
partition with an empty step prefix. -/
def worker_puts (b : Board) (k : Nat) : List (List (List Coordinate)) :=
  (chunk b.available_moves k).map (fun ms => solution_search ms [])

/-- Every value that is ever put on the shared queue during
`parallel_solve(board)` (the interleaving between workers is abstracted;
within one worker the order is the worker's put order).  When this list is
empty no worker ever reports and the coordinator's `queue.get()` blocks
forever. -/
def queue_puts (b : Board) (k : Nat) : List (List Coordinate) :=
  (worker_puts b k).flatten

/-- The value `parallel_solve` returns for a given queue-arrival order: the
single `queue.get()` takes the first arrival; with no arrival the call never
returns. -/
def parallel_result (arrivals : List (List Coordinate)) : Option (List Coordinate) :=
  arrivals.head?

/-- State of the coordinating process of `parallel_solve` (`src/solve.py`
lines 197-209): `waiting pending` - blocked in `queue.get()` with `pending`
the queue contents in arrival order; `resolved s cancelled` - returned
solution `s`, with `cancelled` recording that `p.terminate()` was requested
for every worker. -/
inductive CoordState : Type where
  | waiting (pending : List (List Coordinate)) : CoordState
  | resolved (s : List Coordinate) (cancelled : Bool) : CoordState
deriving DecidableEq

/-- One step of the coordinator: `queue.get()` consumes the first arrival,
after which the code terminates every worker and returns; an empty queue
leaves the coordinator blocked; a resolved coordinator makes no further
transitions (the function has returned). -/
def coordStep : CoordState → CoordState
  | CoordState.waiting [] => CoordState.waiting []
  | CoordState.waiting (s :: _) => CoordState.resolved s true
  | CoordState.resolved s c => CoordState.resolved s c

/-- A 2x2 board whose column 0 holds two cells of color 0 and whose column 1
holds two cells of color 1 (two vertical pairs). -/
def fourB : Board :=
  ⟨2, [[Cell.colored 0, Cell.colored 0], [Cell.colored 1, Cell.colored 1]]⟩

/-- A 2x2 board with a single vertical pair of color 1 in column 0. -/
def oneB : Board :=
  ⟨2, [[Cell.colored 1, Cell.colored 1], [Cell.empty, Cell.empty]]⟩

/-- A 2x2 board with a single vertical pair of color 0 in column 0. -/
def pairB : Board :=
  ⟨2, [[Cell.colored 0, Cell.colored 0], [Cell.empty, Cell.empty]]⟩

/-- The fully `Empty` 2x2 board. -/
def emptyB : Board :=
  ⟨2, [[Cell.empty, Cell.empty], [Cell.empty, Cell.empty]]⟩

/-- A 2x2 checkerboard of two colors: every colored cell is isolated, so the
board has at least one colored cell and no legal moves. -/
def badB : Board :=
  ⟨2, [[Cell.colored 0, Cell.colored 1], [Cell.colored 1, Cell.colored 0]]⟩

/-! Helper lemmas about `List.findSome?`. -/

theorem findSome?_congr_mem {α β : Type} {l : List α} {f g : α → Option β}
    (h : ∀ x ∈ l, f x = g x) : l.findSome? f = l.findSome? g := by
  induction l with
  | nil => rfl
  | cons a l ih =>
    simp only [List.findSome?_cons]
    rw [h a (List.mem_cons_self a l)]
    cases g a with
    | none => exact ih (fun x hx => h x (List.mem_cons_of_mem a hx))
    | some b => rfl

theorem map_findSome? {α β γ : Type} (g : β → γ) (f : α → Option β) (l : List α) :
    (l.findSome? f).map g = l.findSome? (fun x => (f x).map g) := by
  induction l with
  | nil => rfl
  | cons a l ih =>
    simp only [List.findSome?_cons]
    cases f a <;> simp [ih]

/-! Counting lemmas: `coloredCount` is preserved by gravity and collapse and
strictly decreased by removing a component that contains a colored seed. -/

theorem colCount_cons (x : Cell) (xs : List Cell) :
    colCount (x :: xs) = (if x.isColored then 1 else 0) + colCount xs := by
  by_cases hx : x.isColored <;> simp [colCount, List.filter_cons, hx, Nat.add_comm]

theorem filter_replicate_empty (m : Nat) :
    (List.replicate m Cell.empty).filter Cell.isColored = [] := by
  induction m with
  | zero => rfl
  | succ m ih => simp [List.replicate_succ, List.filter_cons, Cell.isColored, ih]

theorem colCount_gravityCol (col : List Cell) : colCount (gravityCol col) = colCount col := by
  simp [gravityCol, colCount, List.filter_append, filter_replicate_empty, List.filter_filter]

theorem coloredCount_gravityBoard (b : Board) :
    coloredCount (gravityBoard b) = coloredCount b := by
  simp only [gravityBoard, coloredCount, List.map_map]
  exact congrArg List.sum (List.map_congr_left (fun col _ => colCount_gravityCol col))

theorem colIsEmpty_iff (col : List Cell) : colIsEmpty col = true ↔ colCount col = 0 := by
  simp [colIsEmpty, colCount, List.all_eq_true, List.length_eq_zero, List.filter_eq_nil]

theorem sum_filter_split {α : Type} (p : α → Bool) (f : α → Nat) (l : List α) :
    ((l.filter p).map f).sum + ((l.filter (fun x => !p x)).map f).sum = (l.map f).sum := by
  induction l with
  | nil => rfl
  | cons a l ih =>
    cases hp : p a <;> simp [List.filter_cons, hp] <;> omega

theorem coloredCount_collapseBoard (b : Board) :
    coloredCount (collapseBoard b) = coloredCount b := by
  have hpad : ∀ m, ((List.replicate m (List.replicate b.n Cell.empty)).map colCount).sum = 0 := by
    intro m
    rw [List.map_replicate]
    have : colCount (List.replicate b.n Cell.empty) = 0 := by
      simp [colCount, filter_replicate_empty]
    rw [this, List.sum_replicate, smul_zero]
  have hsplit := sum_filter_split (fun col => !colIsEmpty col) colCount b.cols
  have hzero : ((b.cols.filter (fun x => !(!colIsEmpty x))).map colCount).sum = 0 := by
    apply List.sum_eq_zero
    intro x hx
    rcases List.mem_map.mp hx with ⟨col, hcol, rfl⟩
    rcases List.mem_filter.mp hcol with ⟨-, hc⟩
    simp only [Bool.not_not] at hc
    exact (colIsEmpty_iff col).mp hc
  simp only [collapseBoard, coloredCount, List.map_append, List.sum_append]
  rw [hpad]
  omega

theorem is_solved_iff_count (b : Board) : b.is_solved = true ↔ coloredCount b = 0 := by
  rw [Board.is_solved, List.all_eq_true, coloredCount, List.sum_eq_zero_iff]
  constructor
  · intro h x hx
    rcases List.mem_map.mp hx with ⟨col, hcol, rfl⟩
    exact (colIsEmpty_iff col).mp (h col hcol)
  · intro h col hcol
    exact (colIsEmpty_iff col).mpr (h (colCount col) (List.mem_map.mpr ⟨col, hcol, rfl⟩))

theorem count_pos_of_not_solved {b : Board} (hs : b.is_solved = false) :
    0 < coloredCount b := by
  rcases Nat.eq_zero_or_pos (coloredCount b) with h0 | hpos
  · exact absurd ((is_solved_iff_count b).mpr h0) (by simp [hs])
  · exact hpos

theorem removeColCells_le (comp : List Coordinate) (j : Nat) :
    ∀ (col : List Cell) (i : Nat),
      colCount (removeColCells comp j i col) ≤ colCount col := by
  intro col
  induction col with
  | nil => intro i; simp [removeColCells]
  | cons cell rest ih =>
    intro i
    have h := ih (i + 1)
    simp only [removeColCells]
    by_cases hm : (⟨i, j⟩ : Coordinate) ∈ comp
    · rw [if_pos hm, colCount_cons, colCount_cons]
      cases cell <;> simp [Cell.isColored] <;> omega
    · rw [if_neg hm, colCount_cons, colCount_cons]
      omega

theorem removeColCells_lt (comp : List Coordinate) (j : Nat) :
    ∀ (col : List Cell) (i t : Nat),
      (col.getD t Cell.empty).isColored = true →
      (⟨i + t, j⟩ : Coordinate) ∈ comp →
      colCount (removeColCells comp j i col) < colCount col := by
  intro col
  induction col with
  | nil =>
    intro i t h _
    simp [List.getD, Cell.isColored] at h
  | cons cell rest ih =>
    intro i t h hm
    cases t with
    | zero =>
      rw [List.getD_cons_zero] at h
      rw [Nat.add_zero] at hm
      have hle := removeColCells_le comp j rest (i + 1)
      simp only [removeColCells]
      rw [if_pos hm, colCount_cons, colCount_cons, h]
      have hb0 : (if Cell.empty.isColored = true then 1 else 0) = 0 := rfl
      have hb1 : (if true = true then (1 : Nat) else 0) = 1 := rfl
      rw [hb0, hb1]
      omega
    | succ s =>
      rw [List.getD_cons_succ] at h
      have hm' : (⟨(i + 1) + s, j⟩ : Coordinate) ∈ comp := by
        have : i + (s + 1) = (i + 1) + s := by omega
        rwa [this] at hm
      have hlt := ih (i + 1) s h hm'
      simp only [removeColCells]
      by_cases hmem : (⟨i, j⟩ : Coordinate) ∈ comp
      · rw [if_pos hmem, colCount_cons, colCount_cons]
        cases cell <;> simp [Cell.isColored] <;> omega
      · rw [if_neg hmem, colCount_cons, colCount_cons]
        omega

theorem removeCols_le (comp : List Coordinate) :
    ∀ (cols : List (List Cell)) (j : Nat),
      ((removeCols comp j cols).map colCount).sum ≤ (cols.map colCount).sum := by
  intro cols
  induction cols with
  | nil => intro j; simp [removeCols]
  | cons col rest ih =>
    intro j
    simp only [removeCols, List.map_cons, List.sum_cons]
    exact Nat.add_le_add (removeColCells_le comp j col 0) (ih (j + 1))

theorem removeCols_lt (comp : List Coordinate) :
    ∀ (cols : List (List Cell)) (j t r : Nat),
      ((cols.getD t []).getD r Cell.empty).isColored = true →
      (⟨r, j + t⟩ : Coordinate) ∈ comp →
      ((removeCols comp j cols).map colCount).sum < (cols.map colCount).sum := by
  intro cols
  induction cols with
  | nil =>
    intro j t r h _
    simp [List.getD, Cell.isColored] at h
  | cons col rest ih =>
    intro j t r h hm
    cases t with
    | zero =>
      rw [List.getD_cons_zero] at h
      rw [Nat.add_zero] at hm
      have hm' : (⟨0 + r, j⟩ : Coordinate) ∈ comp := by rwa [Nat.zero_add]
      have hlt := removeColCells_lt comp j col 0 r h hm'
      simp only [removeCols, List.map_cons, List.sum_cons]
      exact Nat.add_lt_add_of_lt_of_le hlt (removeCols_le comp rest (j + 1))
    | succ s =>
      rw [List.getD_cons_succ] at h
      have hm' : (⟨r, (j + 1) + s⟩ : Coordinate) ∈ comp := by
        have : j + (s + 1) = (j + 1) + s := by omega
        rwa [this] at hm
      have hlt := ih (j + 1) s r h hm'
      simp only [removeCols, List.map_cons, List.sum_cons]
      exact Nat.add_lt_add_of_le_of_lt (removeColCells_le comp j col 0) hlt

/-! Flood-fill seed membership and the strict decrease of `pop_from`. -/

theorem flood_vis_mono (b : Board) (k : Nat) :
    ∀ (fuel : Nat) (fr vis : List Coordinate), vis ⊆ flood b k fuel fr vis := by
  intro fuel
  induction fuel with
  | zero => intro fr vis; simp [flood]
  | succ f ih =>
    intro fr vis
    cases fr with
    | nil => simp [flood]
    | cons c rest =>
      simp only [flood]
      split_ifs with h1 h2
      · exact ih rest vis
      · exact fun x hx => ih (neighbors c ++ rest) (c :: vis) (List.mem_cons_of_mem c hx)
      · exact ih rest vis

theorem seed_mem_component {b : Board} {c : Coordinate} {k : Nat}
    (hcell : cellAt b c.i c.j = Cell.colored k) : c ∈ component b c k := by
  rw [component, show 4 * b.n * b.n + 5 = (4 * b.n * b.n + 4) + 1 from rfl]
  simp only [flood, List.not_mem_nil, if_false, hcell, if_true]
  exact flood_vis_mono b k (4 * b.n * b.n + 4) (neighbors c ++ []) [c]
    (List.mem_cons_self c [])

theorem pop_from_count_lt {b : Board} {c : Coordinate} {b' : Board}
    (h : b.pop_from c = some b') : coloredCount b' < coloredCount b := by
  rw [Board.pop_from] at h
  cases hcell : cellAt b c.i c.j with
  | empty => rw [hcell] at h; exact absurd h (by simp)
  | colored k =>
    rw [hcell] at h
    dsimp only at h
    split_ifs at h with hlen
    · have hb' : b' = collapseBoard (gravityBoard (removeComp b (component b c k))) := by
        injection h with h; exact h.symm
      have hseed : c ∈ component b c k := seed_mem_component hcell
      have hcol : ((b.cols.getD c.j []).getD c.i Cell.empty).isColored = true := by
        rw [show (b.cols.getD c.j []).getD c.i Cell.empty = cellAt b c.i c.j from rfl, hcell]
        rfl
      have hm : (⟨c.i, 0 + c.j⟩ : Coordinate) ∈ component b c k := by
        rwa [Nat.zero_add]
      have hrem : coloredCount (removeComp b (component b c k)) < coloredCount b :=
        removeCols_lt (component b c k) b.cols 0 c.j c.i hcol hm
      rw [hb', coloredCount_collapseBoard, coloredCount_gravityBoard]
      exact hrem

theorem available_moves_pop (b : Board) (p : Coordinate × Board)
    (hp : p ∈ b.available_moves) : b.pop_from p.1 = some p.2 := by
  rw [Board.available_moves] at hp
  rcases List.mem_flatMap.mp hp with ⟨i, -, hp2⟩
  rcases List.mem_filterMap.mp hp2 with ⟨j, -, heq⟩
  rcases Option.map_eq_some'.mp heq with ⟨b', hpop, hpair⟩
  rw [← hpair]
  exact hpop

theorem available_moves_count_lt (b : Board) (p : Coordinate × Board)
    (hp : p ∈ b.available_moves) : coloredCount p.2 < coloredCount b :=
  pop_from_count_lt (available_moves_pop b p hp)

/-! Replay of move sequences. -/

theorem replay_steps_append (b : Board) (xs ys : List Coordinate) :
    replay_steps b (xs ++ ys) = (replay_steps b xs).bind (fun m => replay_steps m ys) := by
  induction xs generalizing b with
  | nil => simp [replay_steps]
  | cons s rest ih =>
    simp only [List.cons_append, replay_steps]
    cases b.pop_from s <;> simp [ih]

/-! Soundness of the serial DFS: every returned value extends the accumulated
prefix by a move sequence that replays without `IllegalMove` to a solved
board.  The statement is fuel-independent: even a fuel-truncated search only
returns sound results. -/

theorem dfsF_sound :
    ∀ (fuel : Nat) (b : Board) (steps r : List Coordinate),
      solveBoardDfsF fuel b steps = some r →
      ∃ p, r = steps ++ p ∧ ∃ fin, replay_steps b p = some fin ∧ fin.is_solved = true := by
  intro fuel
  induction fuel with
  | zero => intro b steps r h; exact absurd h (by simp [solveBoardDfsF])
  | succ f ih =>
    intro b steps r h
    simp only [solveBoardDfsF] at h
    by_cases hs : b.is_solved
    · rw [if_pos hs] at h
      injection h with h
      exact ⟨[], by simp [h], b, by simp [replay_steps], hs⟩
    · rw [if_neg hs] at h
      rcases List.exists_of_findSome?_eq_some h with ⟨p, hpmem, hrec⟩
      rcases ih p.2 (steps ++ [p.1]) r hrec with ⟨q, hq, fin, hrep, hsol⟩
      refine ⟨p.1 :: q, by simp [hq], fin, ?_, hsol⟩
      simp only [replay_steps, available_moves_pop b p hpmem, Option.bind_some]
      exact hrep

/-! The serial solver agrees with the traversal worded by the spec
(accumulator-threading versus prefixing the coordinate onto the recursive
result). -/

theorem dfsF_spec_eq :
    ∀ (fuel : Nat) (b : Board) (steps : List Coordinate),
      solveBoardDfsF fuel b steps = (solveSerialSpecF fuel b).map (steps ++ ·) := by
  intro fuel
  induction fuel with
  | zero => intro b steps; simp [solveBoardDfsF, solveSerialSpecF]
  | succ f ih =>
    intro b steps
    simp only [solveBoardDfsF, solveSerialSpecF]
    by_cases hs : b.is_solved
    · simp [hs]
    · rw [if_neg hs, if_neg hs, map_findSome?]
      apply findSome?_congr_mem
      intro p _
      rw [ih p.2 (steps ++ [p.1])]
      cases solveSerialSpecF f p.2 <;> simp

/-! Lemmas about the fuel bound `maxCount` for the worker search. -/

theorem maxCount_cons (p : Coordinate × Board) (ms : List (Coordinate × Board)) :
    maxCount (p :: ms) = max (coloredCount p.2) (maxCount ms) := rfl

theorem count_le_maxCount (p : Coordinate × Board) (ms : List (Coordinate × Board))
    (hp : p ∈ ms) : coloredCount p.2 ≤ maxCount ms := by
  induction ms with
  | nil => exact absurd hp (List.not_mem_nil p)
  | cons q rest ih =>
    rw [maxCount_cons]
    rcases List.mem_cons.mp hp with h | h
    · rw [h]; exact Nat.le_max_left _ _
    · exact (ih h).trans (Nat.le_max_right _ _)

theorem maxCount_lt_of {K : Nat} (hK : 0 < K) :
    ∀ (ms : List (Coordinate × Board)), (∀ p ∈ ms, coloredCount p.2 < K) →
      maxCount ms < K := by
  intro ms
  induction ms with
  | nil => intro _; exact hK
  | cons q rest ih =>
    intro h
    rw [maxCount_cons]
    exact Nat.max_lt.mpr ⟨h q (List.mem_cons_self q rest), ih (fun p hp => h p (List.mem_cons_of_mem q hp))⟩

theorem maxCount_avail_lt {b : Board} (hs : b.is_solved = false) :
    maxCount b.available_moves < coloredCount b :=
  maxCount_lt_of (count_pos_of_not_solved hs) _ (fun p hp => available_moves_count_lt b p hp)

/-! Fuel stability of the worker search: any two sufficient fuels agree. -/

theorem searchB_stable :
    ∀ (fuel fuel' : Nat) (ms : List (Coordinate × Board)) (steps : List Coordinate),
      maxCount ms < fuel → maxCount ms < fuel' →
      searchB fuel ms steps = searchB fuel' ms steps := by
  intro fuel
  induction fuel with
  | zero => intro fuel' ms steps h; exact absurd h (Nat.not_lt_zero _)
  | succ f ih =>
    intro fuel' ms steps h h'
    cases fuel' with
    | zero => exact absurd h' (Nat.not_lt_zero _)
    | succ f' =>
      show searchGo (searchB f) ms steps = searchGo (searchB f') ms steps
      revert h h'
      induction ms generalizing steps with
      | nil => intro _ _; rfl
      | cons p rest ihm =>
        intro h h'
        obtain ⟨c, b⟩ := p
        have hble : coloredCount b ≤ maxCount ((c, b) :: rest) :=
          count_le_maxCount (c, b) _ (List.mem_cons_self _ _)
        have hrest : maxCount rest ≤ maxCount ((c, b) :: rest) := by
          rw [maxCount_cons]; exact Nat.le_max_right _ _
        simp only [searchGo]
        by_cases hs : b.is_solved
        · rw [if_pos hs, if_pos hs]
        · rw [if_neg hs, if_neg hs]
          have hmlt : maxCount b.available_moves < coloredCount b :=
            maxCount_avail_lt (Bool.eq_false_iff.mpr hs)
          have hdeep : searchB f b.available_moves (steps ++ [c])
              = searchB f' b.available_moves (steps ++ [c]) :=
            ih f' _ _ (lt_of_lt_of_le hmlt (by omega)) (lt_of_lt_of_le hmlt (by omega))
          rw [hdeep, ihm steps (by omega) (by omega)]

/-! Soundness of the worker search: every value a worker ever puts on the
queue replays from the root board to a solved board.  The invariant carried
through the recursion: `steps` replays from the root to the board whose move
list the worker is currently scanning, and every pair in the list is a legal
move of that board. -/

theorem searchGo_sound
    (next : List (Coordinate × Board) → List Coordinate → List (List Coordinate))
    (hnext : ∀ ms steps b0 cur, replay_steps b0 steps = some cur →
      (∀ p ∈ ms, cur.pop_from p.1 = some p.2) →
      ∀ r ∈ next ms steps, ∃ fin, replay_steps b0 r = some fin ∧ fin.is_solved = true) :
    ∀ ms steps b0 cur, replay_steps b0 steps = some cur →
      (∀ p ∈ ms, cur.pop_from p.1 = some p.2) →
      ∀ r ∈ searchGo next ms steps,
        ∃ fin, replay_steps b0 r = some fin ∧ fin.is_solved = true := by
  intro ms
  induction ms with
  | nil => intro steps b0 cur _ _ r hr; exact absurd hr (by simp [searchGo])
  | cons p rest ih =>
    obtain ⟨c, b⟩ := p
    intro steps b0 cur hrep hmoves r hr
    have hpop : cur.pop_from c = some b := hmoves (c, b) (List.mem_cons_self _ _)
    have hrep' : replay_steps b0 (steps ++ [c]) = some b := by
      rw [replay_steps_append, hrep]
      simp [replay_steps, hpop]
    simp only [searchGo] at hr
    by_cases hs : b.is_solved
    · rw [if_pos hs] at hr
      rw [List.mem_singleton.mp hr]
      exact ⟨b, hrep', hs⟩
    · rw [if_neg hs] at hr
      rcases List.mem_append.mp hr with hmem | hmem
      · exact hnext _ _ b0 b hrep' (fun q hq => available_moves_pop b q hq) r hmem
      · exact ih steps b0 cur hrep (fun q hq => hmoves q (List.mem_cons_of_mem _ hq)) r hmem

theorem searchB_sound :
    ∀ (fuel : Nat) (ms : List (Coordinate × Board)) (steps : List Coordinate)
      (b0 cur : Board), replay_steps b0 steps = some cur →
      (∀ p ∈ ms, cur.pop_from p.1 = some p.2) →
      ∀ r ∈ searchB fuel ms steps,
        ∃ fin, replay_steps b0 r = some fin ∧ fin.is_solved = true := by
  intro fuel
  induction fuel with
  | zero =>
    exact searchGo_sound _ (by intro ms steps b0 cur _ _ r hr; exact absurd hr (by simp))
  | succ f ih => exact searchGo_sound _ ih

/-! Partitions produced by `chunk` are made of elements of the input list. -/

theorem chunk_subset {α : Type} (arr : List α) (k : Nat) (ms : List α)
    (hms : ms ∈ chunk arr k) : ms ⊆ arr := by
  rcases List.mem_map.mp hms with ⟨i, -, rfl⟩
  intro x hx
  exact List.drop_subset _ arr (List.take_subset _ _ hx)

/-! Characterization of the worker loop: with no already-solved board in the
current move list the worker explores every branch (reporting deeper
solutions and continuing); an already-solved board at the current level makes
it report and return, skipping the remaining branches. -/

theorem searchB_flatMap :
    ∀ (fuel : Nat) (ms : List (Coordinate × Board)) (steps : List Coordinate),
      maxCount ms < fuel → (∀ p ∈ ms, p.2.is_solved = false) →
      searchB fuel ms steps
        = ms.flatMap (fun p => solution_search p.2.available_moves (steps ++ [p.1])) := by
  intro fuel
  cases fuel with
  | zero => intro ms steps h; exact absurd h (Nat.not_lt_zero _)
  | succ f =>
    intro ms steps h hall
    show searchGo (searchB f) ms steps
      = ms.flatMap (fun p => solution_search p.2.available_moves (steps ++ [p.1]))
    revert h hall
    induction ms generalizing steps with
    | nil => intro _ _; rfl
    | cons p rest ihm =>
      intro h hall
      obtain ⟨c, b⟩ := p
      have hs : b.is_solved = false := hall (c, b) (List.mem_cons_self _ _)
      have hble : coloredCount b ≤ maxCount ((c, b) :: rest) :=
        count_le_maxCount (c, b) _ (List.mem_cons_self _ _)
      have hrest : maxCount rest ≤ maxCount ((c, b) :: rest) := by
        rw [maxCount_cons]; exact Nat.le_max_right _ _
      have hmlt : maxCount b.available_moves < coloredCount b := maxCount_avail_lt hs
      simp only [searchGo, List.flatMap_cons]
      rw [if_neg (by simp [hs])]
      have hdeep : searchB f b.available_moves (steps ++ [c])
          = solution_search b.available_moves (steps ++ [c]) :=
        searchB_stable f (maxCount b.available_moves + 1) _ _
          (by omega) (Nat.lt_succ_self _)
      rw [hdeep, ihm steps (by omega) (fun q hq => hall q (List.mem_cons_of_mem _ hq))]

theorem searchB_truncate :
    ∀ (fuel : Nat) (pre : List (Coordinate × Board)) (c : Coordinate) (b : Board)
      (post : List (Coordinate × Board)) (steps : List Coordinate),
      maxCount (pre ++ (c, b) :: post) < fuel →
      (∀ p ∈ pre, p.2.is_solved = false) → b.is_solved = true →
      searchB fuel (pre ++ (c, b) :: post) steps
        = pre.flatMap (fun p => solution_search p.2.available_moves (steps ++ [p.1]))
          ++ [steps ++ [c]] := by
  intro fuel
  cases fuel with
  | zero => intro pre c b post steps h; exact absurd h (Nat.not_lt_zero _)
  | succ f =>
    intro pre c b post steps h hall hb
    show searchGo (searchB f) (pre ++ (c, b) :: post) steps
      = pre.flatMap (fun p => solution_search p.2.available_moves (steps ++ [p.1]))
        ++ [steps ++ [c]]
    revert h hall
    induction pre generalizing steps with
    | nil =>
      intro _ _
      simp only [List.nil_append, searchGo, List.flatMap_nil]
      rw [if_pos hb]
    | cons q qrest ihq =>
      intro h hall
      obtain ⟨c0, b0⟩ := q
      have hs0 : b0.is_solved = false := hall (c0, b0) (List.mem_cons_self _ _)
      have hble : coloredCount b0 ≤ maxCount ((c0, b0) :: (qrest ++ (c, b) :: post)) :=
        count_le_maxCount (c0, b0) _ (List.mem_cons_self _ _)
      have hrest : maxCount (qrest ++ (c, b) :: post)
          ≤ maxCount ((c0, b0) :: (qrest ++ (c, b) :: post)) := by
        rw [maxCount_cons]; exact Nat.le_max_right _ _
      have hmlt : maxCount b0.available_moves < coloredCount b0 := maxCount_avail_lt hs0
      simp only [List.cons_append, searchGo, List.flatMap_cons, List.append_eq]
      rw [if_neg (by simp [hs0])]
      have hdeep : searchB f b0.available_moves (steps ++ [c0])
          = solution_search b0.available_moves (steps ++ [c0]) :=
        searchB_stable f (maxCount b0.available_moves + 1) _ _
          (by simp only [List.cons_append] at h; omega) (Nat.lt_succ_self _)
      rw [hdeep,
        ihq steps (by simp only [List.cons_append] at h; omega)
          (fun q hq => hall q (List.mem_cons_of_mem _ hq))]
      rw [List.append_assoc]

/-! Claim theorems. -/

/-- Claim C1: for every Board `b` and every Solution `r` returned by either
solver (the serial `solve_board_dfs`, or the parallel solver - whose returned
value is always one of the entries some worker put on the shared queue,
collected in `queue_puts b k`), sequentially applying each coordinate of `r`
starting from `b` never raises `IllegalMove` (the replay stays `some`), and
the board obtained after the last move is solved (all cells `Empty`). -/
theorem c1_solution_validity (b : Board) (k : Nat) (r : List Coordinate)
    (h : solve_board_dfs b [] = some r ∨ r ∈ queue_puts b k) :
    ∃ fin, replay_steps b r = some fin ∧ fin.is_solved = true := by
  rcases h with hser | hpar
  · rcases dfsF_sound _ _ _ _ hser with ⟨p, hp, rest⟩
    rw [hp]
    exact rest
  · rcases List.mem_flatten.mp hpar with ⟨l, hl, hr⟩
    rcases List.mem_map.mp hl with ⟨ms, hms, rfl⟩
    exact searchB_sound _ ms [] b b (by simp [replay_steps])
      (fun p hp => available_moves_pop b p (chunk_subset _ _ _ hms hp)) r hr

/-- Claim C1 witness: on the concrete board `fourB` the solution
`[(0,0), (0,0)]` reported by the parallel worker replays to a solved board. -/
theorem c1_witness :
    ∃ fin, replay_steps fourB [⟨0, 0⟩, ⟨0, 0⟩] = some fin ∧ fin.is_solved = true :=
  c1_solution_validity fourB 1 [⟨0, 0⟩, ⟨0, 0⟩] (Or.inr (by decide))

/-- Claim C2: the serial solver is exactly the depth-first traversal worded by
the spec - for every Board `b`, if `b` is solved it returns the empty
Solution; otherwise it recursively searches each `(coordinate, next_board)`
pair from `legal_moves(b)` in enumeration order and returns the first
recursive result that is not `NotFound`, prefixed with that coordinate; with
no legal moves and `b` unsolved it returns `NotFound`.  `solve_serial_spec`
is that traversal written from the spec's words. -/
theorem c2_serial_is_spec_dfs (b : Board) : solve_board_dfs b [] = solve_serial_spec b := by
  rw [solve_board_dfs, solve_serial_spec, dfsF_spec_eq]
  cases solveSerialSpecF (coloredCount b + 1) b <;> simp

/-- Claim C3 evaluation at the failing input: `pairB` is a solvable, unsolved
board (its one-move solution replays to the solved board), and the serial
solver returns a Solution - but with the source's `NUM_PARALLEL_PROCESSES = 8`
workers, `chunk` makes every partition empty (`round(2/8) = 0`), no worker
ever puts anything on the queue, and the coordinator's blocking `queue.get()`
therefore never returns: the parallel solver neither returns a Solution nor
`NotFound`. -/
theorem c3_code_eval :
    pairB.is_solved = false
    ∧ solve_board_dfs pairB [] = some [⟨0, 0⟩]
    ∧ replay_steps pairB [⟨0, 0⟩] = some emptyB
    ∧ emptyB.is_solved = true
    ∧ queue_puts pairB NUM_PARALLEL_PROCESSES = [] := by decide

/-- Claim C4 evaluation at the failing input: the checkerboard `badB` has
colored cells and no legal moves; the serial solver returns `NotFound`
(`none`), but no worker ever puts anything on the queue, so the parallel
coordinator's blocking `queue.get()` never returns - `parallel_solve` hangs
instead of reporting `NotFound`. -/
theorem c4_code_eval :
    badB.is_solved = false
    ∧ 0 < coloredCount badB
    ∧ badB.available_moves = []
    ∧ solve_board_dfs badB [] = none
    ∧ queue_puts badB NUM_PARALLEL_PROCESSES = [] := by decide

/-- Claim C5 evaluation at the failing input: for the 7-element list split
into `n = 3` parts (`1 <= n <= length`), `chunk` computes
`slice_length = round(7/3) = 2` and returns slices covering only the first 6
elements - the concatenation of the chunks loses element `6`, contradicting
the claimed partition property (and the source's own docstring
`flatten(output) == input`). -/
theorem c5_code_eval :
    chunk ([0, 1, 2, 3, 4, 5, 6] : List Nat) 3 = [[0, 1], [2, 3], [4, 5]]
    ∧ (chunk ([0, 1, 2, 3, 4, 5, 6] : List Nat) 3).flatten ≠ [0, 1, 2, 3, 4, 5, 6] := by
  decide

/-- Claim C6 evaluation at the failing input: on the fully `Empty` board the
serial solver immediately returns the empty Solution, and the root move list
is empty - but `parallel_solve` does not check this: it creates one process
per chunk, i.e. `NUM_PARALLEL_PROCESSES = 8` workers (not zero), each with an
empty partition; no worker ever puts anything on the queue, so the
coordinator's `queue.get()` blocks forever instead of returning the empty
Solution. -/
theorem c6_code_eval :
    emptyB.is_solved = true
    ∧ solve_board_dfs emptyB [] = some []
    ∧ emptyB.available_moves = []
    ∧ (chunk emptyB.available_moves NUM_PARALLEL_PROCESSES).length = NUM_PARALLEL_PROCESSES
    ∧ queue_puts emptyB NUM_PARALLEL_PROCESSES = [] := by decide

/-- Claim C7 counterexample: the single worker partition obtained from
`chunk(fourB.available_moves(), 1)` makes the worker put four solutions on
the queue - it reports a solution while scanning its first branch and then
still explores (and reports from) the three remaining branches, refuting
"after the worker finds and reports a Solution, it explores no further
branches of its partition". -/
theorem c7_counterexample :
    (solution_search ((chunk fourB.available_moves 1).getD 0 []) []).length = 4 := by
  decide

/-- Claim C7 amended: every parallel worker applies the serial recursion to
each branch of its partition in turn, but it does not stop at its first
success - after reporting a solution found by deeper recursion it continues
with the remaining branches (first conjunct: with no already-solved board at
the current level, the put list is the concatenation over all branches); the
worker returns early only when a board at the current level of its list is
already solved (second conjunct: such an entry truncates the scan). -/
theorem c7_amended :
    (∀ ms steps, (∀ p ∈ ms, p.2.is_solved = false) →
      solution_search ms steps
        = ms.flatMap (fun p => solution_search p.2.available_moves (steps ++ [p.1])))
    ∧ (∀ pre c b post steps, (∀ p ∈ pre, p.2.is_solved = false) → b.is_solved = true →
      solution_search (pre ++ (c, b) :: post) steps
        = pre.flatMap (fun p => solution_search p.2.available_moves (steps ++ [p.1]))
          ++ [steps ++ [c]]) :=
  ⟨fun ms steps hall => searchB_flatMap (maxCount ms + 1) ms steps (Nat.lt_succ_self _) hall,
   fun pre c b post steps hall hb =>
    searchB_truncate (maxCount (pre ++ (c, b) :: post) + 1) pre c b post steps
      (Nat.lt_succ_self _) hall hb⟩

/-- Claim C7 witness: both conjuncts of the amended claim evaluated on
concrete move lists built from the demonstration boards. -/
theorem c7_witness :
    solution_search fourB.available_moves []
      = fourB.available_moves.flatMap
          (fun p => solution_search p.2.available_moves ([] ++ [p.1]))
    ∧ solution_search ([(⟨0, 0⟩, oneB)] ++ (⟨0, 1⟩, emptyB) :: [(⟨1, 1⟩, pairB)]) []
      = [((⟨0, 0⟩ : Coordinate), oneB)].flatMap
          (fun p => solution_search p.2.available_moves ([] ++ [p.1]))
        ++ [[] ++ [⟨0, 1⟩]] :=
  ⟨c7_amended.1 fourB.available_moves [] (by decide),
   c7_amended.2 [(⟨0, 0⟩, oneB)] ⟨0, 1⟩ emptyB [(⟨1, 1⟩, pairB)] [] (by decide) (by decide)⟩

/-- Claim C8: the coordinator accepts exactly the first Solution that arrives
on the shared result channel (`queue.get()` returns the head of the arrival
order) and then requests cancellation of all other workers
(`p.terminate()` on every process, recorded by the `true` flag); once
resolved it makes no further transitions for any number of further steps,
and any result arriving after resolution (the tail of the arrival list) is
ignored - it changes neither the accepted value nor the returned one. -/
theorem c8_coordinator :
    ∀ (s : List Coordinate) (rest rest' : List (List Coordinate)) (c : Bool) (m : Nat),
      coordStep (CoordState.waiting (s :: rest)) = CoordState.resolved s true
      ∧ parallel_result (s :: rest) = some s
      ∧ parallel_result (s :: rest) = parallel_result (s :: rest')
      ∧ coordStep^[m] (CoordState.resolved s c) = CoordState.resolved s c :=
  fun _ _ _ c m => ⟨rfl, rfl, rfl, Function.iterate_fixed rfl m⟩

/-- Claim C9: any non-`NotFound` result of the serial recursive search
invoked with accumulated prefix `steps` begins with `steps`, and the suffix
beyond `steps` is exactly the coordinates chosen along one root-to-solved
path: it replays from `b` without `IllegalMove` to a solved board (each
deeper recursion having extended the prefix by exactly one coordinate). -/
theorem c9_prefix_invariant (b : Board) (steps r : List Coordinate)
    (h : solve_board_dfs b steps = some r) :
    steps <+: r
    ∧ ∃ p, r = steps ++ p
        ∧ ∃ fin, replay_steps b p = some fin ∧ fin.is_solved = true := by
  rcases dfsF_sound _ _ _ _ h with ⟨p, hp, rest⟩
  exact ⟨⟨p, hp.symm⟩, p, hp, rest⟩

/-- Claim C9 witness: the recursive search on `oneB` with accumulated prefix
`[(0,0)]` returns `[(0,0), (0,0)]`, which begins with the prefix and whose
suffix solves `oneB`. -/
theorem c9_witness :
    [(⟨0, 0⟩ : Coordinate)] <+: [⟨0, 0⟩, ⟨0, 0⟩]
    ∧ ∃ p, ([⟨0, 0⟩, ⟨0, 0⟩] : List Coordinate) = [⟨0, 0⟩] ++ p
        ∧ ∃ fin, replay_steps oneB p = some fin ∧ fin.is_solved = true :=
  c9_prefix_invariant oneB [⟨0, 0⟩] [⟨0, 0⟩, ⟨0, 0⟩] (by decide)

/-- Claim C10: for every list `arr` and every `n >= 1` - including
`n > arr.length` - `chunk arr n` returns exactly `n` sublists, and sublist
`i` is the contiguous Python slice `arr[i*L:(i+1)*L]` for the single fixed
slice length `L = int(round(len(arr)/float(n)))`; sublists may be empty and
the function is total (never raises). -/
theorem c10_chunk_shape {α : Type} (arr : List α) (n : Nat) (h : 1 ≤ n) :
    ∃ L, (chunk arr n).length = n
      ∧ ∀ i, i < n → (chunk arr n).getD i [] = (arr.drop (i * L)).take L := by
  refine ⟨sliceLength arr.length n, by simp [chunk], ?_⟩
  intro i hi
  rw [chunk, List.getD_eq_getElem?_getD, List.getElem?_map, List.getElem?_range hi]
  rfl

/-- Claim C10 witness: `chunk [0,1,2] 5` (a worker count larger than the list)
yields exactly 5 slices of the fixed slice length. -/
theorem c10_witness :
    ∃ L, (chunk ([0, 1, 2] : List Nat) 5).length = 5
      ∧ ∀ i, i < 5 →
          (chunk ([0, 1, 2] : List Nat) 5).getD i []
            = (([0, 1, 2] : List Nat).drop (i * L)).take L :=
  c10_chunk_shape [0, 1, 2] 5 (by decide)

end BrickPop
